import Mathlib

/-!
Verification of the hierarchical index/pagination core of the `lje` static
blog generator (`lje.py`).

The embedding below translates, from the source:

* `paginate` (lje.py lines 204-206): the Python list comprehension
  `[items[i:(i + page_size)] for i in range(0, len(items), page_size)]`,
  including CPython `range` semantics (a zero step raises `ValueError`,
  modelled as `none`; a negative step yields an empty range here) and
  Python slice clamping.
* `Index` (lje.py lines 383-405): the recursive `defaultdict`-of-self tree,
  with `Index.append` and `get_keys`.  `get_keys` formats the post's UTC
  year (`%Y`) and zero-padded month (`%m`) via
  `datetime.datetime.utcfromtimestamp`; the proleptic-Gregorian conversion
  is spelled out below, and a timestamp whose UTC year falls outside
  `datetime`'s range 1..9999 makes `utcfromtimestamp` raise, modelled as a
  `BuildError`.
* `BlogBuilder.initialize_index` (lines 304-309): fold `Index.append` over
  the stored posts in repository order.
* `BlogBuilder.build_index` (lines 311-320): the recursive site walk that
  paginates each node, numbers pages from 1 (`enumerate(pages, 1)`),
  marks the last page (`page == len(pages)`), and derives the output path
  (`path / str(page) if page != 1 else path`).

Posts are the `Post` named tuple (line 29); the tag list attached here
models `cursor.get_post_tags(post.key)` (line 160-163, `order by tag`),
which is what `get_keys` consumes.
-/

/-- Post value: the `Post` named tuple of lje.py line 29 (`key`, `timestamp`,
`title`, `text`) together with the tags that `cursor.get_post_tags(post.key)`
returns for it (distinct, ordered by tag). -/
structure Post where
  key : String
  timestamp : Int
  title : Option String
  text : String
  tags : List String
deriving DecidableEq

/-- Year and month of a proleptic-Gregorian civil date, from a count of days
since 1970-01-01 (Howard Hinnant's `civil_from_days`, with floor division).
This is the date computation performed by `datetime.datetime.utcfromtimestamp`.
All divisors are positive, so Lean's Int division (Euclidean) agrees with
Python's floor division here. -/
def civilYM (days : Int) : Int × Int :=
  let z := days + 719468
  let era := z / 146097
  let doe := z - era * 146097
  let yoe := (doe - doe / 1460 + doe / 36524 - doe / 146096) / 365
  let y := yoe + era * 400
  let doy := doe - (365 * yoe + yoe / 4 - yoe / 100)
  let mp := (5 * doy + 2) / 153
  let m := mp + (if mp < 10 then 3 else -9)
  (y + (if m ≤ 2 then 1 else 0), m)

/-- UTC year of a POSIX timestamp, as computed by `utcfromtimestamp`. -/
def utcYear (ts : Int) : Int := (civilYM (ts / 86400)).1

/-- UTC month of a POSIX timestamp, as computed by `utcfromtimestamp`. -/
def utcMonth (ts : Int) : Int := (civilYM (ts / 86400)).2

/-- The `%Y` field of `timestamp.strftime` in `Index.get_keys`. -/
def yearStr (ts : Int) : String := toString (utcYear ts)

/-- The `%m` field of `timestamp.strftime` in `Index.get_keys`:
the month, zero-padded to two digits. -/
def monthStr (ts : Int) : String :=
  let m := utcMonth ts
  if m < 10 then "0" ++ toString m else toString m

/-- Whether `datetime.datetime.utcfromtimestamp` accepts the timestamp:
the resulting UTC instant must fall within years 1..9999
(0001-01-01T00:00:00 is -62135596800, 9999-12-31T23:59:59 is 253402300799);
outside this range `utcfromtimestamp` raises. -/
def tsValid (ts : Int) : Bool :=
  -62135596800 ≤ ts && ts ≤ 253402300799

/-- Normalization of one Python slice bound against a list of length `n`:
negative bounds count from the end, and bounds are clamped into `[0, n]`. -/
def pySliceBound (n : Nat) (a : Int) : Nat :=
  if a < 0 then ((n : Int) + a).toNat else min a.toNat n

/-- Python slice `items[a:b]`. -/
def pySlice {α : Type} (items : List α) (a b : Int) : List α :=
  (items.drop (pySliceBound items.length a)).take
    (pySliceBound items.length b - pySliceBound items.length a)

/-- CPython `range(start, stop, step)` as a list: `none` models the
`ValueError` raised when `step == 0`; otherwise the element count is
computed as CPython does and the elements are `start + step * i`. -/
def pythonRange (start stop step : Int) : Option (List Int) :=
  if step = 0 then none
  else if 0 < step then
    some ((List.range (if start < stop then (stop - start - 1).toNat / step.toNat + 1 else 0)).map
      fun (i : Nat) => start + step * (i : Int))
  else
    some ((List.range (if stop < start then (start - stop - 1).toNat / (-step).toNat + 1 else 0)).map
      fun (i : Nat) => start + step * (i : Int))

/-- The `paginate` utility of lje.py lines 204-206:
`[items[i:(i + page_size)] for i in range(0, len(items), page_size)]`. -/
def paginate {α : Type} (items : List α) (page_size : Int) : Option (List (List α)) :=
  (pythonRange 0 (items.length : Int) page_size).map fun idxs =>
    idxs.map fun i => pySlice items i (i + page_size)

/-- The data handed to `build_index_page` for one rendered index page
(lje.py lines 315-317): 1-based page number, whether it is the last page,
the output path `page_path` (as segments below the output root), the owning
node's path `segments`, and the posts on the page. -/
structure PageRecord where
  outPath : List String
  segments : List String
  page : Nat
  isLast : Bool
  posts : List Post
deriving DecidableEq

/-- The page loop of `BlogBuilder.build_index` (lje.py lines 315-317) over an
already-paginated list: `for page, posts in enumerate(pages, 1)` emit a record
with `page_path = path / str(page) if page != 1 else path` and
`is_last = (page == len(pages))`. -/
def pageRecordsOf (path segments : List String) (pages : List (List Post)) :
    List PageRecord :=
  pages.enum.map fun ip =>
    { page := ip.1 + 1
      isLast := ip.1 + 1 == pages.length
      outPath := if ip.1 + 1 ≠ 1 then path ++ [toString (ip.1 + 1)] else path
      segments := segments
      posts := ip.2 }

/-- The per-node part of `BlogBuilder.build_index` (lje.py lines 313-317):
paginate the node's posts, then emit one record per page. -/
def build_index_pages (path segments : List String) (posts : List Post)
    (page_size : Int) : Option (List PageRecord) :=
  (paginate posts page_size).map (pageRecordsOf path segments)

/-- The recursive index tree of lje.py lines 383-405: a node holds the posts
appended to it and its children, keyed by path segment.  The children list
models the `defaultdict` in insertion order (first access appends a fresh
empty child at the end). -/
inductive Index where
  | mk (posts : List Post) (children : List (String × Index))

/-- Posts stored directly at a node. -/
def Index.posts : Index → List Post
  | .mk ps _ => ps

/-- Children of a node, as the ordered segment-to-child association list. -/
def Index.children : Index → List (String × Index)
  | .mk _ cs => cs

/-- A freshly constructed `Index(cursor)`: no posts, no children. -/
def Index.empty : Index := .mk [] []

/-- Lookup of an existing child by segment. -/
def lookupSeg : List (String × Index) → String → Option Index
  | [], _ => none
  | (t, c) :: cs, s => if t = s then some c else lookupSeg cs s

/-- The child returned by `entry.children[segment]`: the existing child, or a
fresh empty node when the segment is missing (defaultdict behaviour). -/
def getChildD (cs : List (String × Index)) (s : String) : Index :=
  (lookupSeg cs s).getD Index.empty

/-- Store a (possibly new) child under a segment: replace in place when the
segment exists, append at the end otherwise (dict insertion order). -/
def setChild : List (String × Index) → String → Index → List (String × Index)
  | [], s, c => [(s, c)]
  | (t, c0) :: cs, s, c => if t = s then (t, c) :: cs else (t, c0) :: setChild cs s c

/-- One descent of `Index.append` (lje.py lines 393-397): walk the membership
key segment by segment from this node, creating missing children on demand,
and append the post to the terminal node's `posts` list. -/
def appendAt (p : Post) : List String → Index → Index
  | [], .mk ps cs => .mk (ps ++ [p]) cs
  | s :: rest, .mk ps cs => .mk ps (setChild cs s (appendAt p rest (getChildD cs s)))

/-- The error raised inside `Index.get_keys` when `utcfromtimestamp` rejects
the post's timestamp.  It carries the offending timestamp; note that it does
not carry the post's key — the exception escaping `get_keys` knows nothing
about which post was being classified. -/
inductive BuildError where
  | timestampOutOfRange (ts : Int)
deriving DecidableEq

/-- The membership keys yielded by `Index.get_keys` (lje.py lines 399-405)
when the timestamp is convertible: `()`, `(year,)`, `(year, month)` and one
`(tag,)` per tag. -/
def keysOf (p : Post) : List (List String) :=
  [[], [yearStr p.timestamp], [yearStr p.timestamp, monthStr p.timestamp]] ++
    p.tags.map fun t => [t]

/-- `Index.get_keys` (lje.py lines 399-405): converts the timestamp via
`utcfromtimestamp` (which raises on an out-of-range timestamp) and yields
the membership keys. -/
def get_keys (p : Post) : Except BuildError (List (List String)) :=
  if tsValid p.timestamp then .ok (keysOf p)
  else .error (.timestampOutOfRange p.timestamp)

/-- `Index.append` (lje.py lines 391-397): descend once per membership key
and append the post at each terminal node; a failing `get_keys` propagates. -/
def Index.append (idx : Index) (p : Post) : Except BuildError Index :=
  match get_keys p with
  | .error e => .error e
  | .ok keys => .ok (keys.foldl (fun i k => appendAt p k i) idx)

/-- One step of the `initialize_index` loop: an already-raised exception
propagates; otherwise the next post is appended. -/
def initStep (acc : Except BuildError Index) (p : Post) : Except BuildError Index :=
  match acc with
  | .error e => .error e
  | .ok idx => idx.append p

/-- `BlogBuilder.initialize_index` (lje.py lines 304-309): start from an
empty root and append every stored post, in repository order; the first
exception escaping `Index.append` aborts the fold. -/
def initialize_index (posts : List Post) : Except BuildError Index :=
  posts.foldl initStep (.ok Index.empty)

/-- Exception-free form of `Index.append`, usable once the timestamp is
known to be convertible. -/
def appendKeys (idx : Index) (p : Post) : Index :=
  (keysOf p).foldl (fun i k => appendAt p k i) idx

/-- Exception-free form of `initialize_index`; it agrees with
`initialize_index` whenever the latter succeeds (`initialize_index_ok`). -/
def initPure (posts : List Post) : Index :=
  posts.foldl appendKeys Index.empty

/-- Node lookup by path segments. -/
def Index.find : List String → Index → Option Index
  | [], idx => some idx
  | s :: rest, .mk _ cs =>
    match lookupSeg cs s with
    | some c => Index.find rest c
    | none => none

/-- Posts stored at the node reached by a path, or `[]` if no such node. -/
def nodePosts (idx : Index) (k : List String) : List Post :=
  match Index.find k idx with
  | some n => n.posts
  | none => []

mutual

/-- The recursive `BlogBuilder.build_index` walk (lje.py lines 311-320):
emit this node's page records, then recurse into each child in order,
extending both the filesystem path and the segment tuple by the child's
segment.  A pagination failure propagates. -/
def build_index (page_size : Int) (path segments : List String) :
    Index → Option (List PageRecord)
  | .mk ps cs =>
    match build_index_pages path segments ps page_size with
    | none => none
    | some here =>
      match build_index_children page_size path segments cs with
      | none => none
      | some rest => some (here ++ rest)

/-- The child loop of `BlogBuilder.build_index` (lje.py lines 319-320). -/
def build_index_children (page_size : Int) (path segments : List String) :
    List (String × Index) → Option (List PageRecord)
  | [] => some []
  | (s, c) :: rest =>
    match build_index page_size (path ++ [s]) (segments ++ [s]) c with
    | none => none
    | some here =>
      match build_index_children page_size path segments rest with
      | none => none
      | some more => some (here ++ more)

end

/-- Fixed test posts: post `i` has key `toString i` and timestamp `i`. -/
def mkPost (i : Nat) : Post :=
  { key := toString i, timestamp := (i : Int), title := none, text := "", tags := [] }

/-- A list of `n` distinct test posts. -/
def testPosts (n : Nat) : List Post :=
  (List.range n).map mkPost

/-- Post with timestamp 0 (UTC year "1970") that is also tagged `"1970"`:
its year membership key and that tag's membership key coincide. -/
def yearTagPost : Post :=
  { key := "p", timestamp := 0, title := none, text := "", tags := ["1970"] }

/-- Post with timestamp 0 and one ordinary tag distinct from its year. -/
def plainTagPost : Post :=
  { key := "w", timestamp := 0, title := none, text := "", tags := ["x"] }

/-- Two posts sharing the smallest out-of-range timestamp (one second past
9999-12-31T23:59:59) but having different keys. -/
def badPostA : Post :=
  { key := "a", timestamp := 253402300800, title := none, text := "", tags := [] }

/-- Companion to `badPostA` with a different key. -/
def badPostB : Post :=
  { key := "b", timestamp := 253402300800, title := none, text := "", tags := [] }

/-- Two posts in timestamp-descending repository order. -/
def descPosts : List Post :=
  [{ key := "newer", timestamp := 100, title := none, text := "", tags := [] },
   { key := "older", timestamp := 50, title := none, text := "", tags := [] }]

/-- Number of chunks `paginate` produces for `n` items and chunk size `sn`. -/
def chunkCount (n sn : Nat) : Nat :=
  if n = 0 then 0 else (n - 1) / sn + 1

/-- The `i`-th chunk of a list for chunk size `sn`. -/
def chunkAt {α : Type} (items : List α) (sn i : Nat) : List α :=
  (items.drop (sn * i)).take sn

lemma chunkAt_zero {α : Type} (items : List α) (sn : Nat) :
    chunkAt items sn 0 = items.take sn := by
  simp [chunkAt]

lemma chunkAt_succ {α : Type} (items : List α) (sn i : Nat) :
    chunkAt items sn (i + 1) = chunkAt (items.drop sn) sn i := by
  simp [chunkAt, List.drop_drop, Nat.mul_succ, Nat.add_comm]

lemma pySlice_chunks_form {α : Type} (items : List α) (sn j : Nat) :
    pySlice items ((j : Nat) : Int) ((j + sn : Nat) : Int) = (items.drop j).take sn := by
  have hba : pySliceBound items.length ((j : Nat) : Int) = min j items.length := by
    unfold pySliceBound
    rw [if_neg (by omega)]
    omega
  have hbb : pySliceBound items.length ((j + sn : Nat) : Int) =
      min (j + sn) items.length := by
    unfold pySliceBound
    rw [if_neg (by omega)]
    omega
  unfold pySlice
  rw [hba, hbb]
  by_cases hjn : items.length ≤ j
  · have h1 : min j items.length = items.length := by omega
    have h2 : items.drop items.length = [] := List.drop_eq_nil_of_le le_rfl
    have h3 : items.drop j = [] := List.drop_eq_nil_of_le (by omega)
    rw [h1, h2, h3, List.take_nil, List.take_nil]
  · have h1 : min j items.length = j := by omega
    by_cases hfit : j + sn ≤ items.length
    · have h2 : min (j + sn) items.length = j + sn := by omega
      rw [h1, h2]
      congr 1
      omega
    · have h2 : min (j + sn) items.length = items.length := by omega
      rw [h1, h2]
      have hlen : (items.drop j).length = items.length - j := List.length_drop _ _
      rw [List.take_of_length_le (by omega), List.take_of_length_le (by omega)]

lemma pySlice_chunk {α : Type} (items : List α) (s : Int) (hs : 1 ≤ s) (i : Nat) :
    pySlice items (0 + s * (i : Int)) (0 + s * (i : Int) + s) = chunkAt items s.toNat i := by
  obtain ⟨sn, hsn⟩ : ∃ sn : Nat, s = (sn : Int) := ⟨s.toNat, by omega⟩
  subst hsn
  have htn : ((sn : Int)).toNat = sn := by omega
  rw [htn]
  have hb : (0 + (sn : Int) * (i : Int) + sn) = ((sn * i + sn : Nat) : Int) := by
    push_cast; ring
  have ha : (0 + (sn : Int) * (i : Int)) = ((sn * i : Nat) : Int) := by
    push_cast; ring
  rw [hb, ha, pySlice_chunks_form items sn (sn * i)]
  rfl

/-- The `paginate` of the source, for a positive page size, in closed chunk
form: `⌈n / sn⌉` chunks, the `i`-th being `items[sn*i : sn*i + sn]`. -/
lemma paginate_eq_chunks {α : Type} (items : List α) (s : Int) (hs : 1 ≤ s) :
    paginate items s =
      some ((List.range (chunkCount items.length s.toNat)).map (chunkAt items s.toNat)) := by
  have hs0 : ¬(s = 0) := by omega
  have hspos : 0 < s := by omega
  unfold paginate pythonRange
  rw [if_neg hs0, if_pos hspos]
  simp only [Option.map_some', Option.some.injEq, List.map_map]
  have hcnt : (if (0 : Int) < (items.length : Int) then
      ((items.length : Int) - 0 - 1).toNat / s.toNat + 1 else 0) =
      chunkCount items.length s.toNat := by
    unfold chunkCount
    by_cases h : items.length = 0
    · rw [if_neg (by omega), if_pos h]
    · rw [if_pos (by omega), if_neg h]
      congr 2
      omega
  rw [hcnt]
  apply List.map_congr_left
  intro i _
  simp only [Function.comp]
  exact pySlice_chunk items s hs i

lemma chunkCount_succ (n sn : Nat) (hsn : 1 ≤ sn) (hn : 1 ≤ n) :
    chunkCount n sn = chunkCount (n - sn) sn + 1 := by
  unfold chunkCount
  rw [if_neg (by omega)]
  by_cases hc : n - sn = 0
  · rw [if_pos hc]
    have : (n - 1) / sn = 0 := Nat.div_eq_of_lt (by omega)
    omega
  · rw [if_neg hc]
    have h1 : n - 1 = (n - sn - 1) + sn := by omega
    rw [h1, Nat.add_div_right _ (by omega)]

lemma chunks_cons {α : Type} (items : List α) (sn : Nat) (hsn : 1 ≤ sn)
    (hne : items ≠ []) :
    (List.range (chunkCount items.length sn)).map (chunkAt items sn) =
      items.take sn ::
        (List.range (chunkCount (items.drop sn).length sn)).map (chunkAt (items.drop sn) sn) := by
  have hlen : 1 ≤ items.length := by
    cases items with
    | nil => exact absurd rfl hne
    | cons x xs => simp
  have h1 : chunkCount items.length sn = chunkCount (items.drop sn).length sn + 1 := by
    rw [List.length_drop]
    exact chunkCount_succ items.length sn hsn hlen
  rw [h1, List.range_succ_eq_map, List.map_cons, List.map_map, chunkAt_zero]
  congr 1
  apply List.map_congr_left
  intro i _
  exact chunkAt_succ items sn i

lemma chunks_flatten_aux {α : Type} (sn : Nat) (hsn : 1 ≤ sn) :
    ∀ (fuel : Nat) (items : List α), items.length ≤ fuel →
      ((List.range (chunkCount items.length sn)).map (chunkAt items sn)).flatten = items := by
  intro fuel
  induction fuel with
  | zero =>
    intro items h
    have : items = [] := List.eq_nil_of_length_eq_zero (by omega)
    subst this
    simp [chunkCount]
  | succ m ih =>
    intro items h
    by_cases hne : items = []
    · subst hne
      simp [chunkCount]
    · rw [chunks_cons items sn hsn hne, List.flatten_cons,
        ih (items.drop sn) (by rw [List.length_drop]; omega),
        List.take_append_drop]

/-- Concatenating all chunks reproduces the items. -/
lemma chunks_flatten {α : Type} (items : List α) (sn : Nat) (hsn : 1 ≤ sn) :
    ((List.range (chunkCount items.length sn)).map (chunkAt items sn)).flatten = items :=
  chunks_flatten_aux sn hsn items.length items le_rfl

lemma nodePosts_empty (k : List String) : nodePosts Index.empty k = [] := by
  cases k <;> rfl

lemma nodePosts_nil (ps : List Post) (cs : List (String × Index)) :
    nodePosts (Index.mk ps cs) [] = ps := rfl

lemma nodePosts_cons (ps : List Post) (cs : List (String × Index)) (s : String)
    (rest : List String) :
    nodePosts (Index.mk ps cs) (s :: rest) = nodePosts (getChildD cs s) rest := by
  cases h : lookupSeg cs s with
  | none =>
    have h1 : nodePosts (Index.mk ps cs) (s :: rest) = [] := by
      unfold nodePosts
      simp [Index.find, h]
    have h2 : getChildD cs s = Index.empty := by simp [getChildD, h]
    rw [h1, h2, nodePosts_empty]
  | some c =>
    have h2 : getChildD cs s = c := by simp [getChildD, h]
    rw [h2]
    unfold nodePosts
    simp [Index.find, h]

lemma lookupSeg_setChild (cs : List (String × Index)) (s q : String) (c : Index) :
    lookupSeg (setChild cs s c) q = if s = q then some c else lookupSeg cs q := by
  induction cs with
  | nil =>
    by_cases h : s = q <;> simp [setChild, lookupSeg, h]
  | cons hd tl ih =>
    obtain ⟨u, d⟩ := hd
    by_cases hus : u = s
    · subst hus
      by_cases huq : u = q <;> simp [setChild, lookupSeg, huq]
    · by_cases huq : u = q
      · subst huq
        have hsq : ¬(s = u) := fun h => hus h.symm
        simp [setChild, lookupSeg, hus, hsq]
      · simp [setChild, lookupSeg, hus, huq, ih]

lemma getChildD_setChild_same (cs : List (String × Index)) (s : String) (c : Index) :
    getChildD (setChild cs s c) s = c := by
  simp [getChildD, lookupSeg_setChild]

lemma getChildD_setChild_other (cs : List (String × Index)) (s q : String) (c : Index)
    (h : ¬(s = q)) :
    getChildD (setChild cs s c) q = getChildD cs q := by
  simp [getChildD, lookupSeg_setChild, h]

/-- Appending one post along one membership key changes exactly that key's
node: its post list gains `p` at the end; every other node is unchanged. -/
lemma nodePosts_appendAt (p : Post) :
    ∀ (k : List String) (idx : Index) (q : List String),
      nodePosts (appendAt p k idx) q =
        nodePosts idx q ++ (if q = k then [p] else []) := by
  intro k
  induction k with
  | nil =>
    intro idx q
    obtain ⟨ps, cs⟩ := idx
    cases q with
    | nil => simp [appendAt, nodePosts, Index.find, Index.posts]
    | cons s rest =>
      rw [show appendAt p [] (Index.mk ps cs) = Index.mk (ps ++ [p]) cs from rfl]
      rw [nodePosts_cons, nodePosts_cons]
      simp
  | cons s rest ih =>
    intro idx q
    obtain ⟨ps, cs⟩ := idx
    rw [show appendAt p (s :: rest) (Index.mk ps cs) =
        Index.mk ps (setChild cs s (appendAt p rest (getChildD cs s))) from rfl]
    cases q with
    | nil =>
      simp [nodePosts_nil]
    | cons t q2 =>
      rw [nodePosts_cons, nodePosts_cons]
      by_cases hts : t = s
      · subst hts
        rw [getChildD_setChild_same, ih]
        by_cases h : q2 = rest <;> simp [h]
      · rw [getChildD_setChild_other cs s t _ (fun h => hts h.symm)]
        have hne : ¬(t :: q2 = s :: rest) := by simp [hts]
        simp [hne]

/-- Effect of one `Index.append` descent set (fold over the membership keys):
node `q` gains one copy of `p` per occurrence of `q` among the keys. -/
lemma nodePosts_foldl_keys (p : Post) :
    ∀ (keys : List (List String)) (idx : Index) (q : List String),
      nodePosts (keys.foldl (fun i k => appendAt p k i) idx) q =
        nodePosts idx q ++ List.replicate (keys.count q) p := by
  intro keys
  induction keys with
  | nil => intro idx q; simp
  | cons k ks ih =>
    intro idx q
    rw [List.foldl_cons, ih, nodePosts_appendAt, List.count_cons, List.append_assoc]
    by_cases h : q = k
    · subst h
      have hstep : (if q = q then [p] else []) ++ List.replicate (List.count q ks) p =
          List.replicate (List.count q ks + 1) p := by
        rw [if_pos rfl, List.singleton_append, ← List.replicate_succ]
      rw [hstep]
      simp
    · have hk : ¬((k == q) = true) := by
        simp only [beq_iff_eq]
        exact fun hh => h hh.symm
      simp [hk, h]

lemma nodePosts_foldl_posts (q : List String) :
    ∀ (posts : List Post) (acc : Index),
      nodePosts (posts.foldl appendKeys acc) q =
        nodePosts acc q ++
          posts.flatMap (fun p => List.replicate ((keysOf p).count q) p) := by
  intro posts
  induction posts with
  | nil => intro acc; simp
  | cons p ps ih =>
    intro acc
    rw [List.foldl_cons, ih, List.flatMap_cons,
      show appendKeys acc p = (keysOf p).foldl (fun i k => appendAt p k i) acc from rfl,
      nodePosts_foldl_keys, List.append_assoc]

/-- Characterization of the built tree: the posts stored at node `q` are the
input posts, in input order, each repeated once per membership key equal
to `q`. -/
lemma nodePosts_initPure (posts : List Post) (q : List String) :
    nodePosts (initPure posts) q =
      posts.flatMap (fun p => List.replicate ((keysOf p).count q) p) := by
  rw [show initPure posts = posts.foldl appendKeys Index.empty from rfl,
    nodePosts_foldl_posts, nodePosts_empty, List.nil_append]

lemma foldl_initStep_error (posts : List Post) (e : BuildError) :
    posts.foldl initStep (.error e) = .error e := by
  induction posts with
  | nil => rfl
  | cons p ps ih => rw [List.foldl_cons]; exact ih

lemma foldl_initStep_ok :
    ∀ (posts : List Post) (idx T : Index),
      posts.foldl initStep (Except.ok idx) = .ok T →
      T = posts.foldl appendKeys idx ∧ ∀ p ∈ posts, tsValid p.timestamp := by
  intro posts
  induction posts with
  | nil =>
    intro idx T h
    refine ⟨?_, by simp⟩
    simpa using h.symm
  | cons p ps ih =>
    intro idx T h
    rw [List.foldl_cons] at h
    by_cases hv : tsValid p.timestamp
    · have hstep : initStep (.ok idx) p = .ok (appendKeys idx p) := by
        simp [initStep, Index.append, get_keys, hv, appendKeys]
      rw [hstep] at h
      obtain ⟨h1, h2⟩ := ih _ _ h
      refine ⟨by rw [List.foldl_cons]; exact h1, ?_⟩
      intro r hr
      rcases List.mem_cons.mp hr with h3 | h3
      · subst h3; exact hv
      · exact h2 r h3
    · have hstep : initStep (.ok idx) p = .error (.timestampOutOfRange p.timestamp) := by
        simp [initStep, Index.append, get_keys, hv]
      rw [hstep, foldl_initStep_error] at h
      exact absurd h (by simp)

/-- When `initialize_index` succeeds, the tree is the exception-free fold
and every timestamp was convertible. -/
lemma initialize_index_ok (posts : List Post) (T : Index)
    (h : initialize_index posts = .ok T) :
    T = initPure posts ∧ ∀ p ∈ posts, tsValid p.timestamp :=
  foldl_initStep_ok posts Index.empty T h

/-- A single inconvertible timestamp anywhere in the input makes the whole
build fail with an error. -/
lemma initialize_index_error_of_bad (posts : List Post) (p : Post)
    (hp : p ∈ posts) (hbad : ¬(tsValid p.timestamp = true)) :
    ∃ e, initialize_index posts = .error e := by
  cases h : initialize_index posts with
  | error e => exact ⟨e, rfl⟩
  | ok T => exact absurd ((initialize_index_ok posts T h).2 p hp) hbad

/-- The built tree's node posts, through the `Except` interface. -/
lemma nodePosts_of_ok (posts : List Post) (T : Index)
    (h : initialize_index posts = .ok T) (q : List String) :
    nodePosts T q =
      posts.flatMap (fun p => List.replicate ((keysOf p).count q) p) := by
  rw [(initialize_index_ok posts T h).1, nodePosts_initPure]

lemma count_flatMap_replicate (P : Post) (g : Post → Nat) :
    ∀ posts : List Post,
      (posts.flatMap fun p => List.replicate (g p) p).count P =
        (posts.map fun p => if p = P then g p else 0).sum := by
  intro posts
  induction posts with
  | nil => simp
  | cons p ps ih =>
    rw [List.flatMap_cons, List.count_append, ih, List.map_cons, List.sum_cons]
    rw [List.count_replicate]
    by_cases h : p = P <;> simp [h, Nat.add_comm]

lemma sum_ite_zero (P : Post) (g : Post → Nat) :
    ∀ posts : List Post, posts.count P = 0 →
      (posts.map fun p => if p = P then g p else 0).sum = 0 := by
  intro posts
  induction posts with
  | nil => intro _; simp
  | cons p ps ih =>
    intro h
    rw [List.count_cons] at h
    have hp : ¬(p = P) := by
      intro hh
      simp [hh] at h
    have h0 : ps.count P = 0 := by omega
    simp [hp, ih h0]

lemma sum_ite_single (P : Post) (g : Post → Nat) :
    ∀ posts : List Post, posts.count P = 1 →
      (posts.map fun p => if p = P then g p else 0).sum = g P := by
  intro posts
  induction posts with
  | nil => intro h; simp at h
  | cons p ps ih =>
    intro h
    rw [List.count_cons] at h
    by_cases hp : p = P
    · subst hp
      have hz : ps.count p = 0 := by
        simp at h
        omega
      simp [sum_ite_zero p g ps hz]
    · have hbeq : ¬((p == P) = true) := by simp [beq_iff_eq, hp]
      rw [if_neg hbeq] at h
      simp [hp, ih (by omega)]

/-- For a post occurring exactly once in the input, its number of copies at
node `q` equals the number of its membership keys equal to `q`. -/
lemma count_nodePosts (posts : List Post) (T : Index) (P : Post) (q : List String)
    (h : initialize_index posts = .ok T) (hone : posts.count P = 1) :
    (nodePosts T q).count P = (keysOf P).count q := by
  rw [nodePosts_of_ok posts T h q, count_flatMap_replicate, sum_ite_single P _ posts hone]

lemma pairwise_flatMap_replicate {R : Post → Post → Prop} (hrefl : ∀ p, R p p)
    (g : Post → Nat) :
    ∀ posts : List Post, posts.Pairwise R →
      (posts.flatMap fun p => List.replicate (g p) p).Pairwise R := by
  intro posts
  induction posts with
  | nil => intro _; simp
  | cons p ps ih =>
    intro h
    rw [List.pairwise_cons] at h
    obtain ⟨hall, hps⟩ := h
    rw [List.flatMap_cons, List.pairwise_append]
    refine ⟨List.pairwise_replicate.mpr (Or.inr (hrefl p)), ih hps, ?_⟩
    intro a ha b hb
    rw [List.eq_of_mem_replicate ha]
    obtain ⟨c, hc, hbc⟩ := List.mem_flatMap.mp hb
    rw [List.eq_of_mem_replicate hbc]
    exact hall c hc

lemma pageRecordsOf_posts (path segs : List String) (pages : List (List Post)) :
    (pageRecordsOf path segs pages).map (fun r => r.posts) = pages := by
  unfold pageRecordsOf
  rw [List.map_map]
  exact List.enum_map_snd pages

lemma pageRecordsOf_length (path segs : List String) (pages : List (List Post)) :
    (pageRecordsOf path segs pages).length = pages.length := by
  unfold pageRecordsOf
  rw [List.length_map, List.enum_length]

lemma pageRecordsOf_page (path segs : List String) (pages : List (List Post)) :
    (pageRecordsOf path segs pages).map (fun r => r.page) =
      (List.range pages.length).map (fun i => i + 1) := by
  unfold pageRecordsOf
  rw [List.map_map]
  have h : pages.enum.map (fun ip => ip.1 + 1) =
      (pages.enum.map Prod.fst).map (fun i => i + 1) := by
    rw [List.map_map]
    rfl
  exact h.trans (by rw [List.enum_map_fst])

lemma pageRecordsOf_isLast (path segs : List String) (pages : List (List Post)) :
    (pageRecordsOf path segs pages).map (fun r => r.isLast) =
      (List.range pages.length).map (fun i => (i + 1 == pages.length)) := by
  unfold pageRecordsOf
  rw [List.map_map]
  have h : pages.enum.map (fun ip => (ip.1 + 1 == pages.length)) =
      (pages.enum.map Prod.fst).map (fun i => (i + 1 == pages.length)) := by
    rw [List.map_map]
    rfl
  exact h.trans (by rw [List.enum_map_fst])

/-- The boolean sequence `page == len(pages)` over 1-based pages: false
everywhere except the very last page. -/
lemma lastFlags_eq (n : Nat) (hn : 1 ≤ n) :
    (List.range n).map (fun i => (i + 1 == n)) = List.replicate (n - 1) false ++ [true] := by
  have h : n = (n - 1) + 1 := by omega
  rw [h, List.range_succ, List.map_append]
  have h2 : (List.range (n - 1)).map (fun i => (i + 1 == n - 1 + 1)) =
      List.replicate (n - 1) false := by
    have h3 : ∀ i ∈ List.range (n - 1), (i + 1 == n - 1 + 1) = false := by
      intro i hi
      rw [List.mem_range] at hi
      simp
      omega
    rw [List.map_congr_left h3]
    simp [List.map_const', List.length_range]
  rw [h2]
  simp

/-- Every record emitted for one node carries that node's `segments`, and its
output path is the node's `path` for page 1 and `path / str(page)` for
later pages. -/
lemma pageRecordsOf_mem (path segs : List String) (pages : List (List Post))
    (r : PageRecord) (hr : r ∈ pageRecordsOf path segs pages) :
    r.segments = segs ∧
      r.outPath = (if r.page = 1 then path else path ++ [toString r.page]) := by
  unfold pageRecordsOf at hr
  obtain ⟨ip, hip, hrec⟩ := List.mem_map.mp hr
  subst hrec
  refine ⟨rfl, ?_⟩
  by_cases h : ip.1 + 1 = 1 <;> simp [h]

lemma build_index_pages_some (path segs : List String) (posts : List Post)
    (s : Int) (out : List PageRecord)
    (h : build_index_pages path segs posts s = some out) :
    ∃ pages, paginate posts s = some pages ∧ out = pageRecordsOf path segs pages := by
  unfold build_index_pages at h
  obtain ⟨pages, h1, h2⟩ := Option.map_eq_some'.mp h
  exact ⟨pages, h1, h2.symm⟩

/-- Main walk invariant, proved for nodes and child lists simultaneously by
strong induction on size: along `build_index`, `path` stays equal to
`root ++ segments`, so every emitted record's output path is its node path
(below the output root) with the page number appended for pages beyond 1. -/
lemma build_index_rel_aux (s : Int) (root : List String) :
    ∀ n : Nat,
      (∀ idx : Index, sizeOf idx ≤ n → ∀ (segs : List String) (out : List PageRecord),
        build_index s (root ++ segs) segs idx = some out →
        ∀ r ∈ out,
          r.outPath =
            (if r.page = 1 then root ++ r.segments
             else (root ++ r.segments) ++ [toString r.page])) ∧
      (∀ cs : List (String × Index), sizeOf cs ≤ n →
        ∀ (segs : List String) (out : List PageRecord),
        build_index_children s (root ++ segs) segs cs = some out →
        ∀ r ∈ out,
          r.outPath =
            (if r.page = 1 then root ++ r.segments
             else (root ++ r.segments) ++ [toString r.page])) := by
  intro n
  induction n using Nat.strong_induction_on with
  | _ n ih =>
    constructor
    · intro idx hsz segs out hwalk r hr
      obtain ⟨ps, cs⟩ := idx
      have hcs : sizeOf cs < n := by
        have h1 : sizeOf cs < sizeOf (Index.mk ps cs) := by
          simp [Index.mk.sizeOf_spec]
        omega
      rw [build_index] at hwalk
      cases hp : build_index_pages (root ++ segs) segs ps s with
      | none => rw [hp] at hwalk; simp at hwalk
      | some here =>
        rw [hp] at hwalk
        cases hc : build_index_children s (root ++ segs) segs cs with
        | none => rw [hc] at hwalk; simp at hwalk
        | some rest =>
          rw [hc] at hwalk
          simp only [Option.some.injEq] at hwalk
          subst hwalk
          rcases List.mem_append.mp hr with hh | hh
          · obtain ⟨pages, hpag, hout⟩ := build_index_pages_some _ _ _ _ _ hp
            subst hout
            obtain ⟨hseg, hpath⟩ := pageRecordsOf_mem _ _ _ _ hh
            rw [hpath, hseg]
          · exact (ih (sizeOf cs) hcs).2 cs le_rfl segs rest hc r hh
    · intro cs hsz segs out hwalk r hr
      cases cs with
      | nil =>
        rw [build_index_children] at hwalk
        simp only [Option.some.injEq] at hwalk
        subst hwalk
        simp at hr
      | cons hd rest =>
        obtain ⟨t, c⟩ := hd
        have hc : sizeOf c < n := by
          have h1 : sizeOf c < sizeOf ((t, c) :: rest) := by
            simp
            omega
          omega
        have hrest : sizeOf rest < n := by
          have h1 : sizeOf rest < sizeOf ((t, c) :: rest) := by
            simp
          omega
        rw [build_index_children] at hwalk
        cases hchild : build_index s ((root ++ segs) ++ [t]) (segs ++ [t]) c with
        | none => rw [hchild] at hwalk; simp at hwalk
        | some here =>
          rw [hchild] at hwalk
          cases hmore : build_index_children s (root ++ segs) segs rest with
          | none => rw [hmore] at hwalk; simp at hwalk
          | some more =>
            rw [hmore] at hwalk
            simp only [Option.some.injEq] at hwalk
            subst hwalk
            rcases List.mem_append.mp hr with hh | hh
            · have hassoc : (root ++ segs) ++ [t] = root ++ (segs ++ [t]) :=
                (List.append_assoc root segs [t])
              rw [hassoc] at hchild
              exact (ih (sizeOf c) hc).1 c le_rfl (segs ++ [t]) here hchild r hh
            · exact (ih (sizeOf rest) hrest).2 rest le_rfl segs more hmore r hh

/-- Walk invariant at the root call `build_index(self.index, self.path)`:
`path = root`, `segments = ()`. -/
lemma build_index_rel (s : Int) (root : List String) (idx : Index)
    (out : List PageRecord) (h : build_index s root [] idx = some out) :
    ∀ r ∈ out,
      r.outPath =
        (if r.page = 1 then root ++ r.segments
         else (root ++ r.segments) ++ [toString r.page]) := by
  have h0 : root = root ++ ([] : List String) := by simp
  rw [h0] at h
  exact (build_index_rel_aux s root (sizeOf idx)).1 idx le_rfl [] out h

lemma count_keysOf_tagKey (tags : List String) (t : String) :
    List.count [t] (tags.map fun u => [u]) = List.count t tags := by
  induction tags with
  | nil => rfl
  | cons u us ih =>
    rw [List.map_cons, List.count_cons, List.count_cons, ih]
    congr 1
    by_cases h : u = t
    · simp [h]
    · have h2 : ¬(([u] : List String) == [t]) = true := by simp [beq_iff_eq, h]
      have h3 : ¬((u == t) = true) := by simp [beq_iff_eq, h]
      rw [if_neg h2, if_neg h3]

lemma count_map_singleton_ne (tags : List String) (k : List String)
    (hk : ∀ t, ¬(k = [t])) : List.count k (tags.map fun u => [u]) = 0 := by
  rw [List.count_eq_zero]
  intro hmem
  obtain ⟨t, _, ht⟩ := List.mem_map.mp hmem
  exact hk t ht.symm

example : yearStr 0 = "1970" := by decide
example : monthStr 0 = "01" := by decide
example : yearStr 1407000000 = "2014" ∧ monthStr 1407000000 = "08" := by decide
example : paginate ([] : List Post) 10 = some [] := by decide
example : paginate (testPosts 3) 2 = some [[mkPost 0, mkPost 1], [mkPost 2]] := by decide
example : paginate (testPosts 3) 0 = none := by decide
example : paginate (testPosts 3) (-1) = some [] := by decide

/-- Claim C1, as stated, is false on the code: `paginate([], 10)` returns an
empty list of pages (not a single empty page numbered 1 and marked last),
and `build_index` consequently emits no page record at all for a node
without posts. -/
theorem claim_C1_counterexample :
    paginate ([] : List Post) 10 = some [] ∧
    build_index_pages [] [] ([] : List Post) 10 = some [] ∧
    ¬∃ pages : List (List Post),
        paginate ([] : List Post) 10 = some pages ∧ pages.length = 1 := by
  refine ⟨rfl, rfl, ?_⟩
  rintro ⟨pages, h1, h2⟩
  rw [show paginate ([] : List Post) 10 = some [] from rfl] at h1
  simp only [Option.some.injEq] at h1
  subst h1
  simp at h2

/-- Claim C1 amended: for every page size S ≥ 1, `paginate` applied to an
empty post list returns zero pages, and the page loop of `build_index`
therefore emits no page record for that node (no empty index page is ever
materialized). -/
theorem claim_C1_amended (s : Int) (hs : 1 ≤ s) (path segs : List String) :
    paginate ([] : List Post) s = some [] ∧
    build_index_pages path segs ([] : List Post) s = some [] := by
  have h := paginate_eq_chunks ([] : List Post) s hs
  rw [show chunkCount ([] : List Post).length s.toNat = 0 from rfl,
    List.range_zero, List.map_nil] at h
  refine ⟨h, ?_⟩
  unfold build_index_pages
  rw [h]
  rfl

/-- Witness for the amended claim C1 at page size 10. -/
theorem claim_C1_amended_witness :
    paginate ([] : List Post) 10 = some [] ∧
    build_index_pages ["t"] ["t"] ([] : List Post) 10 = some [] :=
  claim_C1_amended 10 (by decide) ["t"] ["t"]

/-- Claim C2: for a non-empty post list of length N and page size S ≥ 1,
`paginate` returns exactly ⌈N/S⌉ pages, each of length at most S, whose
concatenation in order is exactly the input; the page loop of `build_index`
assigns the 1-based contiguous page numbers 1..⌈N/S⌉ in order, page i
carrying the i-th chunk. -/
theorem claim_C2 (posts : List Post) (s : Int) (hs : 1 ≤ s) (hne : posts ≠ [])
    (path segs : List String) :
    ∃ chunks : List (List Post),
      paginate posts s = some chunks ∧
      chunks.length = (posts.length + s.toNat - 1) / s.toNat ∧
      chunks.flatten = posts ∧
      (∀ c ∈ chunks, c.length ≤ s.toNat) ∧
      build_index_pages path segs posts s = some (pageRecordsOf path segs chunks) ∧
      (pageRecordsOf path segs chunks).map (fun r => r.posts) = chunks ∧
      (pageRecordsOf path segs chunks).map (fun r => r.page) =
        List.range' 1 chunks.length := by
  have hsn : 1 ≤ s.toNat := by omega
  have hlen : 1 ≤ posts.length := by
    cases posts with
    | nil => exact absurd rfl hne
    | cons p ps => simp
  refine ⟨(List.range (chunkCount posts.length s.toNat)).map (chunkAt posts s.toNat),
    paginate_eq_chunks posts s hs, ?_, chunks_flatten posts s.toNat hsn, ?_, ?_, ?_, ?_⟩
  · rw [List.length_map, List.length_range]
    unfold chunkCount
    rw [if_neg (by omega)]
    have h1 : posts.length + s.toNat - 1 = (posts.length - 1) + s.toNat := by omega
    rw [h1, Nat.add_div_right _ (by omega)]
  · intro c hc
    obtain ⟨i, hi, hci⟩ := List.mem_map.mp hc
    rw [← hci]
    unfold chunkAt
    rw [List.length_take]
    omega
  · unfold build_index_pages
    rw [paginate_eq_chunks posts s hs]
    rfl
  · exact pageRecordsOf_posts _ _ _
  · rw [pageRecordsOf_page, List.length_map, List.length_range,
      List.range'_eq_map_range]
    apply List.map_congr_left
    intro i _
    omega

/-- Witness for claim C2: 25 posts at page size 10. -/
theorem claim_C2_witness :
    ∃ chunks : List (List Post),
      paginate (testPosts 25) 10 = some chunks ∧
      chunks.length = ((testPosts 25).length + (10 : Int).toNat - 1) / (10 : Int).toNat ∧
      chunks.flatten = testPosts 25 ∧
      (∀ c ∈ chunks, c.length ≤ (10 : Int).toNat) ∧
      build_index_pages [] [] (testPosts 25) 10 = some (pageRecordsOf [] [] chunks) ∧
      (pageRecordsOf [] [] chunks).map (fun r => r.posts) = chunks ∧
      (pageRecordsOf [] [] chunks).map (fun r => r.page) =
        List.range' 1 chunks.length :=
  claim_C2 (testPosts 25) 10 (by decide) (by decide) [] []

/-- Claim C3, as stated, is false on the code: for the negative page size -1
and a non-empty post list, `paginate` silently returns an empty page list
instead of failing. -/
theorem claim_C3_counterexample :
    paginate [mkPost 0] (-1 : Int) = some [] ∧
    ¬(paginate [mkPost 0] (-1 : Int) = none) := by
  refine ⟨rfl, ?_⟩
  rw [show paginate [mkPost 0] (-1 : Int) = some [] from rfl]
  simp

/-- Claim C3 amended: a page size of exactly 0 makes `paginate` fail (the
`ValueError` raised by `range(0, n, 0)`, modelled as `none`) and produce no
pages, but there is no InvalidConfiguration condition: a negative page size
is accepted silently and yields an empty page list. -/
theorem claim_C3_amended (items : List Post) (s : Int) :
    (s = 0 → paginate items s = none) ∧
    (s < 0 → paginate items s = some []) := by
  constructor
  · intro h
    subst h
    unfold paginate pythonRange
    simp
  · intro h
    unfold paginate pythonRange
    rw [if_neg (by omega), if_neg (by omega), if_neg (by omega)]
    simp

/-- Witness for the amended claim C3 at page sizes 0 and -5. -/
theorem claim_C3_amended_witness :
    paginate (testPosts 1) 0 = none ∧ paginate (testPosts 1) (-5 : Int) = some [] :=
  ⟨(claim_C3_amended (testPosts 1) 0).1 rfl,
   (claim_C3_amended (testPosts 1) (-5)).2 (by decide)⟩

/-- Claim C4, as stated, is false on the code: a post whose tag equals the
4-digit year of its own timestamp is appended twice to the shared node under
that segment, so it does not appear exactly once in the year node (which is
also its tag node). -/
theorem claim_C4_counterexample :
    ∃ T : Index,
      initialize_index [yearTagPost] = .ok T ∧
      yearStr yearTagPost.timestamp = "1970" ∧
      (nodePosts T ["1970"]).count yearTagPost = 2 ∧
      ¬((nodePosts T ["1970"]).count yearTagPost = 1) := by
  refine ⟨initPure [yearTagPost], rfl, by decide, by decide, by decide⟩

/-- Claim C4 amended: provided the post occurs once in the input, its tags
are distinct, and no tag equals the year string of its timestamp, the post
appears exactly once in the root node, once in its year node, once in its
year-month node (month zero-padded to two digits), once in each of its tag
nodes, and zero times at every path that is not one of its membership keys. -/
theorem claim_C4_amended (posts : List Post) (T : Index) (P : Post)
    (hok : initialize_index posts = .ok T)
    (hone : posts.count P = 1)
    (hnd : P.tags.Nodup)
    (hy : yearStr P.timestamp ∉ P.tags) :
    (nodePosts T []).count P = 1 ∧
    (nodePosts T [yearStr P.timestamp]).count P = 1 ∧
    (nodePosts T [yearStr P.timestamp, monthStr P.timestamp]).count P = 1 ∧
    (∀ t ∈ P.tags, (nodePosts T [t]).count P = 1) ∧
    (∀ k : List String, k ∉ keysOf P → (nodePosts T k).count P = 0) := by
  have hc : ∀ q, (nodePosts T q).count P = (keysOf P).count q :=
    fun q => count_nodePosts posts T P q hok hone
  refine ⟨?_, ?_, ?_, ?_, ?_⟩
  · rw [hc]
    unfold keysOf
    rw [List.count_append, count_map_singleton_ne P.tags [] (fun t => by simp)]
    simp [List.count_cons, beq_iff_eq]
  · rw [hc]
    unfold keysOf
    rw [List.count_append, count_keysOf_tagKey P.tags (yearStr P.timestamp),
      List.count_eq_zero.mpr hy]
    simp [List.count_cons, beq_iff_eq]
  · rw [hc]
    unfold keysOf
    rw [List.count_append, count_map_singleton_ne P.tags
      [yearStr P.timestamp, monthStr P.timestamp] (fun t => by simp)]
    simp [List.count_cons, beq_iff_eq]
  · intro t ht
    have hty : ¬(yearStr P.timestamp = t) := fun h => hy (h ▸ ht)
    rw [hc]
    unfold keysOf
    rw [List.count_append, count_keysOf_tagKey P.tags t,
      List.count_eq_one_of_mem hnd ht]
    simp [List.count_cons, beq_iff_eq, hty]
  · intro k hk
    rw [hc]
    exact List.count_eq_zero.mpr hk

/-- Witness for the amended claim C4: one post with tag "x" at timestamp 0. -/
theorem claim_C4_amended_witness :
    (nodePosts (initPure [plainTagPost]) []).count plainTagPost = 1 ∧
    (nodePosts (initPure [plainTagPost]) [yearStr plainTagPost.timestamp]).count
        plainTagPost = 1 ∧
    (nodePosts (initPure [plainTagPost])
        [yearStr plainTagPost.timestamp, monthStr plainTagPost.timestamp]).count
        plainTagPost = 1 ∧
    (∀ t ∈ plainTagPost.tags,
      (nodePosts (initPure [plainTagPost]) [t]).count plainTagPost = 1) ∧
    (∀ k : List String, k ∉ keysOf plainTagPost →
      (nodePosts (initPure [plainTagPost]) k).count plainTagPost = 0) :=
  claim_C4_amended [plainTagPost] (initPure [plainTagPost]) plainTagPost rfl
    (by decide) (by decide) (by decide)

/-- Claim C5: if the input post list is sorted by timestamp descending, then
every node's post list in the built tree is sorted by timestamp descending,
and each node's posts are exactly the input posts in input order, each
repeated once per matching membership key — so no reordering occurs
anywhere in the tree relative to the input order. -/
theorem claim_C5 (posts : List Post) (T : Index)
    (hok : initialize_index posts = .ok T)
    (hsorted : posts.Pairwise (fun a b => b.timestamp ≤ a.timestamp)) :
    ∀ k : List String,
      (nodePosts T k).Pairwise (fun a b => b.timestamp ≤ a.timestamp) ∧
      nodePosts T k =
        posts.flatMap (fun p => List.replicate ((keysOf p).count k) p) := by
  intro k
  have hchar := nodePosts_of_ok posts T hok k
  refine ⟨?_, hchar⟩
  rw [hchar]
  exact pairwise_flatMap_replicate (fun p => le_refl p.timestamp) _ posts hsorted

/-- Witness for claim C5: two posts in descending timestamp order. -/
theorem claim_C5_witness :
    (nodePosts (initPure descPosts) []).Pairwise
      (fun a b => b.timestamp ≤ a.timestamp) ∧
    nodePosts (initPure descPosts) [] =
      descPosts.flatMap (fun p => List.replicate ((keysOf p).count []) p) :=
  claim_C5 descPosts (initPure descPosts) rfl (by decide) []

/-- Claim C6: along the site walk, every emitted page record's output path
is the owning node's path for page 1 and the node's path extended with the
decimal page number for pages beyond 1; in particular a node at
["2014", "08"] with 15 posts at page size 10 yields exactly the output
addresses 2014/08/ (page 1) and 2014/08/2/ (page 2). -/
theorem claim_C6 :
    (∀ (s : Int) (root : List String) (idx : Index) (out : List PageRecord),
      build_index s root [] idx = some out →
      ∀ r ∈ out,
        r.outPath =
          (if r.page = 1 then root ++ r.segments
           else (root ++ r.segments) ++ [toString r.page])) ∧
    ((build_index_pages ["2014", "08"] ["2014", "08"] (testPosts 15) 10).map
        (fun recs => recs.map fun r => (r.outPath, r.page)) =
      some [(["2014", "08"], 1), (["2014", "08", "2"], 2)]) := by
  refine ⟨?_, by decide⟩
  intro s root idx out h
  exact build_index_rel s root idx out h

/-- Witness for claim C6: a concrete walk of a single node with three posts
at page size 2 from output root ["site"]. -/
theorem claim_C6_witness :
    ∃ out : List PageRecord,
      build_index 2 ["site"] [] (Index.mk (testPosts 3) []) = some out ∧
      ∀ r ∈ out,
        r.outPath =
          (if r.page = 1 then ["site"] ++ r.segments
           else (["site"] ++ r.segments) ++ [toString r.page]) := by
  have hpages : build_index_pages ["site"] [] (testPosts 3) 2 =
      some (pageRecordsOf ["site"] [] [[mkPost 0, mkPost 1], [mkPost 2]]) := by
    decide
  have hchildren : build_index_children 2 ["site"] [] [] = some [] := by
    rw [build_index_children]
  have hwalk : build_index 2 ["site"] [] (Index.mk (testPosts 3) []) =
      some (pageRecordsOf ["site"] [] [[mkPost 0, mkPost 1], [mkPost 2]] ++ []) := by
    rw [build_index, hpages, hchildren]
  exact ⟨_, hwalk, fun r hr => claim_C6.1 2 ["site"] _ _ hwalk r hr⟩

/-- Claim C7: whenever the page loop emits a non-empty record list, the
`is_last` flags are false on every page except the final one, which is true;
in particular 25 posts at page size 10 give pages of sizes 10, 10, 5 with
only the third marked last. -/
theorem claim_C7 :
    (∀ (posts : List Post) (s : Int) (path segs : List String)
        (recs : List PageRecord),
      1 ≤ s →
      build_index_pages path segs posts s = some recs →
      recs ≠ [] →
      recs.map (fun r => r.isLast) =
        List.replicate (recs.length - 1) false ++ [true]) ∧
    ((build_index_pages [] [] (testPosts 25) 10).map
        (fun recs => recs.map fun r => (r.posts.length, r.isLast)) =
      some [(10, false), (10, false), (5, true)]) := by
  refine ⟨?_, by decide⟩
  intro posts s path segs recs hs hb hne
  obtain ⟨pages, hpag, hout⟩ := build_index_pages_some _ _ _ _ _ hb
  subst hout
  rw [pageRecordsOf_isLast, pageRecordsOf_length]
  have hlen : 1 ≤ pages.length := by
    by_contra h
    have h0 : pages.length = 0 := by omega
    have h1 : pages = [] := List.eq_nil_of_length_eq_zero h0
    subst h1
    exact hne rfl
  exact lastFlags_eq pages.length hlen

/-- Witness for claim C7 at the 25-post, page-size-10 example. -/
theorem claim_C7_witness :
    ∃ recs : List PageRecord,
      build_index_pages [] [] (testPosts 25) 10 = some recs ∧
      recs.map (fun r => r.isLast) =
        List.replicate (recs.length - 1) false ++ [true] := by
  cases hb : build_index_pages [] [] (testPosts 25) 10 with
  | none => exact absurd hb (by decide)
  | some recs =>
    refine ⟨recs, rfl, claim_C7.1 (testPosts 25) 10 [] [] recs (by decide) hb ?_⟩
    intro h
    rw [h] at hb
    exact absurd hb (by decide)

/-- Claim C8, as stated, is false on the code in one respect: the error that
the build raises for an inconvertible timestamp is not associated with the
post's key — two malformed posts with different keys produce the very same
error value, which carries only the offending timestamp. -/
theorem claim_C8_counterexample :
    initialize_index [badPostA] =
      .error (.timestampOutOfRange 253402300800) ∧
    initialize_index [badPostB] =
      .error (.timestampOutOfRange 253402300800) ∧
    ¬(badPostA.key = badPostB.key) ∧
    initialize_index [badPostA] = initialize_index [badPostB] :=
  ⟨rfl, rfl, by decide, rfl⟩

/-- Claim C8 amended: a post whose timestamp cannot be interpreted as a
valid UTC instant makes the whole build fail synchronously with an error
(carrying the timestamp, not the post's key), and the build never succeeds
while silently dropping such a post: success implies every input timestamp
was convertible. -/
theorem claim_C8_amended (posts : List Post) :
    ((∃ p ∈ posts, ¬(tsValid p.timestamp = true)) →
      ∃ e, initialize_index posts = .error e) ∧
    (∀ T : Index, initialize_index posts = .ok T →
      ∀ p ∈ posts, tsValid p.timestamp = true) := by
  constructor
  · rintro ⟨p, hp, hbad⟩
    exact initialize_index_error_of_bad posts p hp hbad
  · intro T hok
    exact (initialize_index_ok posts T hok).2

/-- Witness for the amended claim C8 on a single malformed post. -/
theorem claim_C8_amended_witness :
    ∃ e, initialize_index [badPostA] = Except.error e :=
  (claim_C8_amended [badPostA]).1 ⟨badPostA, by decide, by decide⟩

/-- Claim C9: building the index twice from the same post list produces
structurally identical trees — every path resolves to the same node (and
hence the same post sequence) in both trees. -/
theorem claim_C9 (posts : List Post) (T1 T2 : Index)
    (h1 : initialize_index posts = .ok T1)
    (h2 : initialize_index posts = .ok T2) :
    ∀ k : List String, Index.find k T1 = Index.find k T2 := by
  rw [h1] at h2
  have h3 : T1 = T2 := by
    injection h2
  subst h3
  intro k
  rfl

/-- Witness for claim C9 on a one-post list. -/
theorem claim_C9_witness :
    Index.find [] (initPure [plainTagPost]) =
      Index.find [] (initPure [plainTagPost]) :=
  claim_C9 [plainTagPost] (initPure [plainTagPost]) (initPure [plainTagPost])
    rfl rfl []

/-- Claim C10: year nodes and tag nodes share one child namespace under the
root — for a post (occurring once in the input) with a tag equal to the year
string of its own timestamp (appearing once among its tags), that string is
a membership key twice, and the single node at that path holds the post
exactly twice. -/
theorem claim_C10 (posts : List Post) (T : Index) (P : Post)
    (hok : initialize_index posts = .ok T)
    (hone : posts.count P = 1)
    (hyt : P.tags.count (yearStr P.timestamp) = 1) :
    (keysOf P).count [yearStr P.timestamp] = 2 ∧
    (nodePosts T [yearStr P.timestamp]).count P = 2 := by
  have hcount : (keysOf P).count [yearStr P.timestamp] = 2 := by
    unfold keysOf
    rw [List.count_append, count_keysOf_tagKey P.tags (yearStr P.timestamp), hyt]
    simp [List.count_cons, beq_iff_eq]
  exact ⟨hcount, by
    rw [count_nodePosts posts T P _ hok hone, hcount]⟩

/-- Witness for claim C10: the post with timestamp 0 tagged "1970". -/
theorem claim_C10_witness :
    (keysOf yearTagPost).count [yearStr yearTagPost.timestamp] = 2 ∧
    (nodePosts (initPure [yearTagPost])
        [yearStr yearTagPost.timestamp]).count yearTagPost = 2 :=
  claim_C10 [yearTagPost] (initPure [yearTagPost]) yearTagPost rfl
    (by decide) (by decide)
